import Mathlib

/-!
Shallow embedding of the EMD sift engine from `src/emd/emd/sift.py`.

Signals are lists of rationals; numpy elementwise arithmetic becomes
`List.zipWith`.  The spline interpolation kernels and the energy-ratio
comparison (which uses `log10`) are numerical-runtime collaborators and are
passed as explicit function parameters; every piece of control flow, every
stopping criterion and the extrema/padding arithmetic are embedded directly
from the source.  Python `while` loops are embedded with an explicit fuel
parameter; running out of fuel is a distinguished outcome, never conflated
with a result the Python code can produce.  Division on `ℚ` totalises the
numpy division: theorems whose meaning would change at a zero denominator
carry an explicit nonzero hypothesis.
-/

namespace EmdSift

/-- A 1-D signal: ordered real samples (sift.py works on `ndarray[nsamples]`). -/
abbrev Signal := List ℚ

/-- Elementwise addition (numpy `+`). -/
def addS (a b : Signal) : Signal := List.zipWith (· + ·) a b

/-- Elementwise subtraction (numpy `-`). -/
def subS (a b : Signal) : Signal := List.zipWith (· - ·) a b

/-- Scalar multiple of a signal (numpy scalar `*`). -/
def scaleS (c : ℚ) (a : Signal) : Signal := a.map (fun v => c * v)

/-- `np.sum(x**2)`. -/
def sumsq (a : Signal) : ℚ := (a.map (fun v => v * v)).sum

/-- `np.abs(x).sum()`. -/
def sumAbs (a : Signal) : ℚ := (a.map (fun v => |v|)).sum

/-- `np.mean([upper, lower], axis=0)`: the pointwise mean of two envelopes
(sift.py line 148). -/
def meanUL (u l : Signal) : Signal := List.zipWith (fun a b => (a + b) / 2) u l

/-- Pointwise mean of a family of signals over `n` samples
(`np.array(list_of_rows).mean(axis=0)`). -/
def meanSignals (ss : List Signal) (n : ℕ) : Signal :=
  (List.range n).map (fun t => (ss.map (fun s => s.getD t 0)).sum / ss.length)

/-- Pointwise sum of a family of signals over `n` samples
(`imf.sum(axis=1)` in the sift driver). -/
def sumSignals (ss : List Signal) (n : ℕ) : Signal :=
  (List.range n).map (fun t => (ss.map (fun s => s.getD t 0)).sum)

/-! ### Stopping-criterion evaluators (sift.py lines 251-362) -/

/-- `sd_stop` (sift.py lines 251-282): `metric = np.sum((proto_imf -
prev_imf)**2) / np.sum(proto_imf**2)`, stop when `metric < sd`.  At the call
site (line 155) the first argument receives the current proto-IMF and the
second the fresh candidate `x1`. -/
def sd_stop (proto_imf prev_imf : Signal) (sd : ℚ) : Bool × ℚ :=
  let metric := sumsq (subS proto_imf prev_imf) / sumsq proto_imf
  (decide (metric < sd), metric)

/-- `rilling_stop` (sift.py lines 285-338): per-sample evaluation
`|avg_env| / amp` with `avg_env = (upper+lower)/2`, `amp = |upper-lower|/2`;
`metric = np.mean(eval_metric > sd1)`; continue while `metric > tol` or any
sample exceeds `sd2`. -/
def rilling_stop (upper_env lower_env : Signal) (sd1 sd2 tol : ℚ) : Bool × ℚ :=
  let evals := List.zipWith
    (fun u l => |(u + l) / 2| / (|u - l| / 2)) upper_env lower_env
  let metric : ℚ := ((evals.filter (fun e => decide (sd1 < e))).length : ℚ) / evals.length
  let continue1 := decide (tol < metric)
  let continue2 := evals.any (fun e => decide (sd2 < e))
  (!(continue1 || continue2), metric)

/-- `fixed_stop` (sift.py lines 341-362): stop exactly when `niters == max_iters`. -/
def fixed_stop (niters max_iters : ℕ) : Bool := niters == max_iters

/-! ### The single-IMF refiner `get_next_imf` (sift.py lines 62-180) -/

/-- The `stop_method` flag of `get_next_imf`. -/
inductive StopMethod
  | sd
  | rilling
  | fixed
deriving DecidableEq

/-- The envelope mode requested from `interp_envelope`. -/
inductive EnvMode
  | upper
  | lower
  | combined
deriving DecidableEq

/-- An envelope computation: the two `interp_envelope` calls of
`get_next_imf` (lines 135-138), returning `none` when the envelope is
undefined.  Kept as a parameter because the spline kernels themselves live in
scipy; the claims quantify over it. -/
abbrev EnvFun := EnvMode → Signal → Option Signal

/-- The keyword arguments of `get_next_imf` that steer the refinement loop. -/
structure ImfOpts where
  stopMethod : StopMethod
  sdThresh : ℚ
  rill1 : ℚ
  rill2 : ℚ
  rillTol : ℚ
  envStepSize : ℚ
  maxIters : ℕ
deriving DecidableEq

/-- Defaults of `get_next_imf`: `stop_method='sd'`, `sd_thresh=.1`,
`rilling_thresh=(0.05, 0.5, 0.05)`, `env_step_size=1`, `max_iters=1000`. -/
def defaultImfOpts : ImfOpts :=
  ⟨StopMethod.sd, 1/10, 1/20, 1/2, 1/20, 1, 1000⟩

/-- Outcome of one `get_next_imf` call: the returned pair, the
`EMDSiftCovergeError`, or fuel exhaustion of the embedding (the Python loop
not having finished within the allotted unrolling; never a Python result). -/
inductive GNIOutcome
  | ok (imf : Signal) (continueFlag : Bool)
  | convergeError
  | fuelOut
deriving DecidableEq

/-- The stopping decision taken inside the `while` loop of `get_next_imf`
(lines 153-162), for current proto-IMF `proto`, envelopes `u`/`l` and the
fresh candidate `x1 = proto - avg`. -/
def stopCheck (o : ImfOpts) (u l proto : Signal) (niters : ℕ) : Bool :=
  let avg := meanUL u l
  let x1 := subS proto avg
  match o.stopMethod with
  | StopMethod.sd => (sd_stop proto x1 o.sdThresh).1
  | StopMethod.rilling => (rilling_stop u l o.rill1 o.rill2 o.rillTol).1
  | StopMethod.fixed => fixed_stop niters o.maxIters

/-- The `while continue_imf` loop of `get_next_imf` (lines 125-169).
Faithful to the source order: the convergence guard is evaluated at the top
(`elif niters > max_iters: raise`, shadowed by the `niters == 3*max_iters//4`
logging branch), then `niters += 1`, then the envelopes; a missing envelope
exits with the untouched proto-IMF and a false continue flag; a firing
criterion exits with the candidate; otherwise `proto -= env_step_size*avg`. -/
def getNextImfLoop (env : EnvFun) (o : ImfOpts) :
    ℕ → Signal → ℕ → GNIOutcome
  | 0, _, _ => GNIOutcome.fuelOut
  | fuel + 1, proto, niters =>
    if o.stopMethod ≠ StopMethod.fixed ∧ ¬(niters = 3 * o.maxIters / 4) ∧
        o.maxIters < niters then
      GNIOutcome.convergeError
    else
      let niters' := niters + 1
      match env EnvMode.upper proto, env EnvMode.lower proto with
      | some u, some l =>
        if stopCheck o u l proto niters' then
          GNIOutcome.ok (subS proto (meanUL u l)) true
        else
          getNextImfLoop env o fuel (subS proto (scaleS o.envStepSize (meanUL u l))) niters'
      | _, _ => GNIOutcome.ok proto false

/-- `get_next_imf` (sift.py lines 62-180).  `egate` models the optional
`energy_thresh` block (lines 174-178): `none` is the default
`energy_thresh=None`; `some g` models `_energy_difference(X, X-proto_imf) >
energy_thresh` (a `log10` comparison, a numerical-runtime collaborator),
which can only clear the continue flag. -/
def get_next_imf (env : EnvFun) (o : ImfOpts)
    (egate : Option (Signal → Signal → Bool)) (fuel : ℕ) (X : Signal) :
    GNIOutcome :=
  match getNextImfLoop env o fuel X 0 with
  | GNIOutcome.ok imf flag =>
    match egate with
    | none => GNIOutcome.ok imf flag
    | some g => if g X (subS X imf) then GNIOutcome.ok imf false else GNIOutcome.ok imf flag
  | e => e

/-- The SD metric exactly as the spec sentence words it: squared norm of
(candidate minus previous) divided by the squared norm of the *candidate*.
Stated from the spec, to be compared against `sd_stop` as called from
`get_next_imf`. -/
def specSdMetric (candidate previous : Signal) : ℚ :=
  sumsq (subS candidate previous) / sumsq candidate

/-! ### The classic sift driver (sift.py lines 378-487) -/

/-- Outcome of a full `sift` call: the IMF collection (list of columns of the
`[samples x nimfs]` result), a propagated `EMDSiftCovergeError`, or fuel
exhaustion of the embedding. -/
inductive SiftResult
  | ok (imfs : List Signal)
  | convergeError
  | fuelOut
deriving DecidableEq

/-- The `while continue_sift` loop of `sift` (lines 459-487), with the
single-IMF refiner abstracted as `next` (in `sift` it is `get_next_imf` with
the configured options).  Per iteration: extract `next_imf` and the continue
flag, append it, recompute `proto_imf = X - imf.sum(axis=1)`, increment
`layer`, then clear the flag when `layer == max_imfs` (if set) or when
`np.abs(next_imf).sum() < sift_thresh`.  An error in the refiner propagates. -/
def siftLoop (next : Signal → GNIOutcome) (X : Signal) (siftThresh : ℚ)
    (maxImfs : Option ℕ) : ℕ → Signal → ℕ → List Signal → SiftResult
  | 0, _, _, _ => SiftResult.fuelOut
  | fuel + 1, proto, layer, acc =>
    match next proto with
    | GNIOutcome.ok nextImf flag =>
      let acc' := acc ++ [nextImf]
      let proto' := subS X (sumSignals acc' X.length)
      let layer' := layer + 1
      let flag' := if maxImfs = some layer' then false else flag
      let flag'' := if sumAbs nextImf < siftThresh then false else flag'
      if flag'' then siftLoop next X siftThresh maxImfs fuel proto' layer' acc'
      else SiftResult.ok acc'
    | GNIOutcome.convergeError => SiftResult.convergeError
    | GNIOutcome.fuelOut => SiftResult.fuelOut

/-- `sift` (lines 378-487): run the loop from `proto_imf = X.copy()`,
`layer = 0`, empty collection.  Default `sift_thresh=1e-8`, `max_imfs=None`. -/
def sift (next : Signal → GNIOutcome) (X : Signal) (siftThresh : ℚ)
    (maxImfs : Option ℕ) (fuel : ℕ) : SiftResult :=
  siftLoop next X siftThresh maxImfs fuel X 0 []

/-! ### Extrema detection (`_find_extrema`, sift.py lines 1310-1351) -/

/-- `signal.argrelextrema(X, np.greater, order=1)` with the default clip
boundary: indices whose sample strictly exceeds both order-1 neighbours
(boundary samples are never extrema since the clipped comparison is
`X[0] > X[0]`).  This is the `parabolic_extrema=False, peak_prom_thresh=None`
default path of `_find_extrema`. -/
def findExtremaLocs (X : Signal) : List ℕ :=
  (List.range X.length).filter (fun i =>
    decide (0 < i) && decide (i + 1 < X.length) &&
    decide (X.getD (i - 1) 0 < X.getD i 0) &&
    decide (X.getD (i + 1) 0 < X.getD i 0))

/-- `_find_extrema` (lines 1310-1351, default options): locations and the
sample values at them; both empty when no local maximum exists. -/
def find_extrema (X : Signal) : List ℕ × List ℚ :=
  let locs := findExtremaLocs X
  (locs, locs.map (fun i => X.getD i 0))

/-- The `mode` switch of `get_padded_extrema` (lines 1274-1282). -/
inductive ExtremaMode
  | peaks
  | troughs
  | absPeaks
deriving DecidableEq

/-- Extrema in the requested detection mode: `troughs` negates the signal and
negates the magnitudes back, `abs_peaks` detects on `np.abs(X)`
(lines 1274-1280). -/
def findExtremaMode : ExtremaMode → Signal → List ℕ × List ℚ
  | ExtremaMode.peaks, X => find_extrema X
  | ExtremaMode.troughs, X =>
    let r := find_extrema (X.map (fun v => -v))
    (r.1, r.2.map (fun v => -v))
  | ExtremaMode.absPeaks, X => find_extrema (X.map (fun v => |v|))

/-! ### Extrema padding (`get_padded_extrema`, sift.py lines 1229-1307)

Locations are padded with `np.pad(mode='reflect', reflect_type='odd')` and
magnitudes with `np.pad(mode='median', stat_length=1)` (the hard-coded
defaults).  numpy's reflect padding works in chunks of at most `len - 1`
entries per side, re-reflecting at the edges of the grown array when the
requested width exceeds that. -/

/-- One side of a single odd-reflection chunk, `w ≤ a.length - 1`: the values
prepended on the left are `2*a[0] - a[k]` for `k = w, ..., 1`. -/
def leftReflectOdd (w : ℕ) (a : List ℤ) : List ℤ :=
  (((a.drop 1).take w).map (fun x => 2 * a.headD 0 - x)).reverse

/-- The values appended on the right by one odd-reflection chunk:
`2*a[n-1] - a[n-1-k]` for `k = 1, ..., w`. -/
def rightReflectOdd (w : ℕ) (a : List ℤ) : List ℤ :=
  ((a.reverse.drop 1).take w).map (fun x => 2 * a.getLastD 0 - x)

/-- One odd-reflection padding chunk of width `w ≤ a.length - 1` on both
sides. -/
def padOnceOdd (w : ℕ) (a : List ℤ) : List ℤ :=
  leftReflectOdd w a ++ a ++ rightReflectOdd w a

/-- Chunked odd reflection, with a structural counter: each chunk handles at
most `a.length - 1` entries per side (numpy re-reflects at the edges of the
grown array when the requested width exceeds that).  Every chunk consumes at
least one unit of the remaining width, so a counter starting at `w` always
suffices and the `0` case is unreachable from `padReflectOdd`. -/
def padReflectOddAux : ℕ → ℕ → List ℤ → List ℤ
  | 0, _, a => a
  | fuel + 1, w, a =>
    if w = 0 then a
    else if a.length ≤ 1 then a
    else if w ≤ a.length - 1 then padOnceOdd w a
    else padReflectOddAux fuel (w - (a.length - 1)) (padOnceOdd (a.length - 1) a)

/-- `np.pad(a, w, 'reflect', reflect_type='odd')`. -/
def padReflectOdd (w : ℕ) (a : List ℤ) : List ℤ :=
  padReflectOddAux w w a

/-- `np.pad(m, w, 'median', stat_length=1)`: the median of a single edge
sample is that sample, so each side is padded with the replicated edge
value. -/
def padMedian1 (w : ℕ) (m : List ℚ) : List ℚ :=
  List.replicate w (m.headD 0) ++ m ++ List.replicate w (m.getLastD 0)

/-- Python `min` over a nonempty array (0 as the irrelevant value on `[]`). -/
def lmin : List ℤ → ℤ
  | [] => 0
  | x :: xs => xs.foldl min x

/-- Python `max` over a nonempty array (0 as the irrelevant value on `[]`). -/
def lmax : List ℤ → ℤ
  | [] => 0
  | x :: xs => xs.foldl max x

/-- The `while max(ret_max_locs) < len(X) or min(ret_max_locs) >= 0` re-pad
loop of `get_padded_extrema` (lines 1302-1305), with explicit fuel. -/
def padLoop (w N : ℕ) : ℕ → List ℤ → List ℚ → Option (List ℤ × List ℚ)
  | 0, _, _ => none
  | fuel + 1, locs, mags =>
    if lmax locs < (N : ℤ) ∨ 0 ≤ lmin locs then
      padLoop w N fuel (padReflectOdd w locs) (padMedian1 w mags)
    else some (locs, mags)

/-- `get_padded_extrema` (lines 1229-1307) with the default padding options:
detect extrema in `mode`; fewer than 2 extrema gives `None`; clamp the pad
width to the number of extrema; `pad_width == 0` returns the raw extrema;
otherwise pad once and re-pad until the locations cover `[0, len X)`.
`fuel` bounds the re-pad loop; `none` by fuel exhaustion is distinguished
from the code's `None` only in that the loop had not yet exited. -/
def get_padded_extrema (X : Signal) (padWidth : ℕ) (mode : ExtremaMode)
    (fuel : ℕ) : Option (List ℤ × List ℚ) :=
  let r := findExtremaMode mode X
  if r.1.length = 0 ∨ r.1.length ≤ 1 then none
  else
    let w := if r.1.length < padWidth then r.1.length else padWidth
    if w = 0 then some (r.1.map Int.ofNat, r.2)
    else padLoop w X.length fuel (padReflectOdd w (r.1.map Int.ofNat)) (padMedian1 w r.2)

/-- An interpolation kernel: given padded locations, padded magnitudes and
the signal length, produce the dense envelope sliced to the signal range, or
fail.  Models the scipy `splrep`/`pchip` call plus the slicing and length
check of `interp_envelope` (lines 1437-1456); a collaborator of the core. -/
abbrev InterpKernel := List ℤ → List ℚ → ℕ → Option Signal

/-- `interp_envelope` (lines 1396-1461): fetch padded extrema in the
mode-appropriate detection type (upper→peaks, lower→troughs,
combined→abs_peaks); `None` extrema propagate as a `None` envelope; otherwise
run the interpolation kernel. -/
def interp_envelope (kernel : InterpKernel) (padWidth fuel : ℕ)
    (mode : EnvMode) (X : Signal) : Option Signal :=
  let emode := match mode with
    | EnvMode.upper => ExtremaMode.peaks
    | EnvMode.lower => ExtremaMode.troughs
    | EnvMode.combined => ExtremaMode.absPeaks
  match get_padded_extrema X padWidth emode fuel with
  | none => none
  | some (locs, pks) => kernel locs pks X.length

/-- The envelope function `get_next_imf` actually uses: two `interp_envelope`
calls sharing one kernel and the extrema options (default `pad_width = 2`). -/
def envOf (kernel : InterpKernel) (padWidth fuel : ℕ) : EnvFun :=
  fun mode X => interp_envelope kernel padWidth fuel mode X

/-! ### Ensemble consensus (`ensemble_sift`, sift.py lines 665-680) -/

/-- `np.unique`: the distinct values of `l` in increasing order. -/
def uniqueSorted (l : List ℕ) : List ℕ :=
  (List.range (l.foldl max 0 + 1)).filter (fun v => l.contains v)

/-- Occurrences of `v` in `l` (the `return_counts=True` counts). -/
def countIn (l : List ℕ) (v : ℕ) : ℕ := l.countP (fun x => x == v)

/-- `uni[np.argmax(unic)]`: the IMF count retained by the consensus step —
the most frequent element of `nimfs`, ties broken towards the smallest value
because `np.unique` sorts and `argmax` returns the first maximum. -/
def majorityCount (nimfs : List ℕ) : ℕ :=
  match uniqueSorted nimfs with
  | [] => 0
  | v :: vs =>
    (vs.foldl
      (fun b v' => if b.2 < countIn nimfs v' then (v', countIn nimfs v') else b)
      (v, countIn nimfs v)).1

/-- The post-processing of `ensemble_sift` (lines 665-680) on the list of
per-realization IMF collections `res`: `max_imfs` defaults to
`res[0].shape[1]`; realizations whose IMF count differs from the majority
count are filtered out; then for each `ii in range(max_imfs)` the retained
realizations' `ii`-th IMFs are averaged pointwise.  Indexing a retained
realization beyond its IMF count raises `IndexError`, modelled as `none`. -/
def ensemble_sift_consensus (res : List (List Signal)) (maxImfs : Option ℕ)
    (n : ℕ) : Option (List Signal) :=
  match res with
  | [] => none
  | r0 :: _ =>
    let mi := maxImfs.getD r0.length
    let target := majorityCount (res.map List.length)
    let retained := res.filter (fun r => r.length == target)
    (List.range mi).mapM (fun ii =>
      (retained.mapM (fun (r : List Signal) => r.get? ii)).map
        (fun col => meanSignals col n))

/-! ### Randomness dataflow of the ensemble drivers (sift.py lines 495-804)

The numpy generators are numerical-runtime collaborators; what the claims
are about is which generator each driver consumes.  `ent` is the ambient
entropy stream (OS entropy / global RNG state), indexed by draw; a concrete
injective mixing function stands in for `SeedSequence`'s hash — only its
determinism matters. -/

/-- Models `np.random.SeedSequence(base).generate_state(n)`: a deterministic
expansion of one base seed into `n` sub-seeds. -/
def seedExpand (base : ℕ) (n : ℕ) : List ℕ :=
  (List.range n).map (fun i => base * 1000003 + i + 1)

/-- The seeds `ensemble_sift` (lines 650-661) feeds to its realizations:
`SeedSequence(seed)` — drawing entropy only when `seed is None` — expanded
into one sub-seed per realization; each `_sift_with_noise` call then builds
its noise from `np.random.default_rng(seedgen[ii])` (lines 551-552). -/
def ensembleSiftSeedTrace (seed : Option ℕ) (ent : ℕ → ℕ) (nens : ℕ) :
    List ℕ :=
  let base := match seed with
    | some s => s
    | none => ent 0
  seedExpand base nens

/-- The entropy draws `complete_ensemble_sift` (lines 747-804) consumes for
its first layer: the noise matrix comes from the unseeded *global* RNG
(`np.random.random_sample`, line 760), and every `_sift_with_noise` argument
tuple (lines 763-765) stops at `extrema_opts`, so `seed` defaults to `None`
and `np.random.default_rng(None)` draws fresh entropy in each realization.
The function's own `seed` parameter is never read — exactly as in the
source. -/
def completeEnsembleSiftRandTrace (_seed : Option ℕ) (ent : ℕ → ℕ)
    (nens : ℕ) : List ℕ :=
  ent 0 :: (List.range nens).map (fun i => ent (i + 1))

/-! ### Mask sift helpers (sift.py lines 813-939) -/

/-- The phase-collation of `get_next_imf_mask` (lines 874-892): run the
refiner on `X` plus each mask, subtract each mask from its result, average
across phases, and return `np.any(continue_flags)`.  `next` is the partial
application of `get_next_imf` built at line 876; `masks` are the columns of
the mask matrix `m` (cosines at evenly spaced phases, trigonometric values
supplied by the numerical runtime).  A raise inside any phase aborts the
whole batch. -/
def get_next_imf_mask (next : Signal → GNIOutcome) (X : Signal)
    (masks : List Signal) : GNIOutcome :=
  let res := masks.map (fun m => next (addS X m))
  match res.find? (fun (r : GNIOutcome) => !(r matches GNIOutcome.ok _ _)) with
  | some e => e
  | none =>
    let pairs := List.zipWith
      (fun r m => match r with
        | GNIOutcome.ok imf _ => subS imf m
        | _ => [])
      res masks
    let flags := res.map (fun r => match r with
      | GNIOutcome.ok _ f => f
      | _ => false)
    GNIOutcome.ok (meanSignals pairs X.length) (flags.any id)

/-- Outcome of `get_mask_freqs` on a numeric `first_mask_mode`:
the returned frequency, the `ValueError` of line 935, or the
`UnboundLocalError` Python raises at `return z` (line 939) when no branch
assigned `z`. -/
inductive MaskFreqOutcome
  | ok (z : ℚ)
  | valueError
  | unboundLocal
deriving DecidableEq

/-- `get_mask_freqs` (lines 895-939) on a numeric `first_mask_mode` `f`
(neither `'zc'` nor `'if'`): the chain is `if f == 'zc': ... elif f == 'if':
... elif f < .5:` with the inner validation `if f <= 0 or f >= .5: raise
ValueError`; when `f >= .5` no branch runs and `return z` raises
`UnboundLocalError`. -/
def get_mask_freqs_num (f : ℚ) : MaskFreqOutcome :=
  if f < 1/2 then
    if f ≤ 0 ∨ 1/2 ≤ f then MaskFreqOutcome.valueError
    else MaskFreqOutcome.ok f
  else MaskFreqOutcome.unboundLocal

/-! ## Helper lemmas -/

theorem sumsq_sub_comm (a b : Signal) : sumsq (subS a b) = sumsq (subS b a) := by
  induction a generalizing b with
  | nil => cases b <;> rfl
  | cons x xs ih =>
    cases b with
    | nil => rfl
    | cons y ys =>
      simp only [subS, List.zipWith, sumsq, List.map, List.sum_cons]
      have := ih ys
      simp only [subS, sumsq] at this
      rw [this]
      ring_nf

theorem foldl_min_le_init (xs : List ℤ) (a : ℤ) : xs.foldl min a ≤ a := by
  induction xs generalizing a with
  | nil => exact le_refl a
  | cons y ys ih => exact le_trans (ih (min a y)) (min_le_left a y)

theorem foldl_min_le_mem (xs : List ℤ) (a x : ℤ) (hx : x ∈ xs) :
    xs.foldl min a ≤ x := by
  induction xs generalizing a with
  | nil => cases hx
  | cons y ys ih =>
    rcases List.mem_cons.mp hx with rfl | hx'
    · exact le_trans (foldl_min_le_init ys (min a x)) (min_le_right a x)
    · exact ih (min a y) hx'

theorem foldl_min_mem (xs : List ℤ) (a : ℤ) :
    xs.foldl min a = a ∨ xs.foldl min a ∈ xs := by
  induction xs generalizing a with
  | nil => exact Or.inl rfl
  | cons y ys ih =>
    rcases ih (min a y) with h | h
    · rcases le_total a y with hay | hya
      · left; rw [List.foldl_cons, h, min_eq_left hay]
      · right; rw [List.foldl_cons, h, min_eq_right hya]; exact List.mem_cons_self y ys
    · right; exact List.mem_cons_of_mem y h

theorem init_le_foldl_max (xs : List ℤ) (a : ℤ) : a ≤ xs.foldl max a := by
  induction xs generalizing a with
  | nil => exact le_refl a
  | cons y ys ih => exact le_trans (le_max_left a y) (ih (max a y))

theorem mem_le_foldl_max (xs : List ℤ) (a x : ℤ) (hx : x ∈ xs) :
    x ≤ xs.foldl max a := by
  induction xs generalizing a with
  | nil => cases hx
  | cons y ys ih =>
    rcases List.mem_cons.mp hx with rfl | hx'
    · exact le_trans (le_max_right a x) (init_le_foldl_max ys (max a x))
    · exact ih (max a y) hx'

theorem lmin_le_mem {l : List ℤ} {x : ℤ} (hx : x ∈ l) : lmin l ≤ x := by
  cases l with
  | nil => cases hx
  | cons y ys =>
    rcases List.mem_cons.mp hx with rfl | hx'
    · exact foldl_min_le_init ys x
    · exact foldl_min_le_mem ys y x hx'

theorem mem_le_lmax {l : List ℤ} {x : ℤ} (hx : x ∈ l) : x ≤ lmax l := by
  cases l with
  | nil => cases hx
  | cons y ys =>
    rcases List.mem_cons.mp hx with rfl | hx'
    · exact init_le_foldl_max ys x
    · exact mem_le_foldl_max ys y x hx'

theorem lmin_of_sorted {x : ℤ} {xs : List ℤ}
    (h : (x :: xs).Pairwise (· < ·)) : lmin (x :: xs) = x := by
  rcases foldl_min_mem xs x with h' | h'
  · exact h'
  · have hx : x < xs.foldl min x := (List.pairwise_cons.mp h).1 _ h'
    have hle : xs.foldl min x ≤ x := foldl_min_le_init xs x
    omega

theorem lmax_of_sorted : ∀ {l : List ℤ}, l.Pairwise (· < ·) → l ≠ [] →
    lmax l = l.getLastD 0
  | [], _, hne => absurd rfl hne
  | [x], _, _ => rfl
  | x :: y :: t, h, _ => by
    have hxy : x < y := (List.pairwise_cons.mp h).1 y (List.mem_cons_self y t)
    have ht : (y :: t).Pairwise (· < ·) := (List.pairwise_cons.mp h).2
    have ih := lmax_of_sorted ht (List.cons_ne_nil y t)
    show (y :: t).foldl max x = (x :: y :: t).getLastD 0
    rw [List.foldl_cons, max_eq_right (le_of_lt hxy)]
    exact ih

/-! ## Claim theorems -/

/-- **C1** (counterexample).  The claim states that at each refinement
iteration of `get_next_imf` with `stop_method='sd'`, proto-IMF `p` and
candidate `c = p - avg`, the stopping metric is ‖c−p‖²/‖c‖² and refinement
stops emitting `c` exactly when it is below `sd_thresh`.  At `p = [3]`,
`c = [4]` (envelope mean `[-1]`) the code's metric (`sd_stop(p, c)` at
sift.py:155, which divides by `‖p‖²`) is 1/9, not the claimed 1/16; the
claimed metric is below the 0.1 threshold yet the run does not stop there:
it continues and emits `[5]` on the next iteration. -/
theorem C1_sd_denominator_counterexample :
    (sd_stop [3] [4] (1/10)).2 ≠ specSdMetric [4] [3] ∧
    (sd_stop [3] [4] (1/10)).1 = false ∧
    specSdMetric [4] [3] < 1/10 ∧
    get_next_imf (fun _ _ => some [-1])
        ⟨StopMethod.sd, 1/10, 1/20, 1/2, 1/20, 1, 10⟩ none 5 [3]
      = GNIOutcome.ok [5] true := by
  refine ⟨by norm_num [sd_stop, specSdMetric, sumsq, subS],
    by norm_num [sd_stop, sumsq, subS],
    by norm_num [specSdMetric, sumsq, subS],
    by norm_num [get_next_imf, getNextImfLoop, stopCheck, sd_stop, meanUL,
      subS, scaleS, sumsq]⟩

/-- **C2** (evaluation at the failing input).  The claim says a run of
`ensemble_sift` whose realizations disagree on the IMF count still returns
the averaged majority-group IMFs without error.  With realization IMF counts
`[5, 3, 3]` and `max_imfs=None` the majority count is 3, but the averaging
loop runs `ii` up to `res[0].shape[1] = 5` and indexes the retained
3-IMF realizations at column 3 — an `IndexError` (modelled by `none`). -/
theorem C2_ensemble_consensus_index_error :
    majorityCount [5, 3, 3] = 3 ∧
    ensemble_sift_consensus
        [List.replicate 5 [1], List.replicate 3 [1], List.replicate 3 [1]]
        none 1 = none := by
  refine ⟨by decide, by decide⟩

/-- **C3** (evaluation at the failing input).  The claim says both ensemble
drivers are bit-reproducible from a fixed seed.  `ensemble_sift` is: its
sub-seed trace is a pure function of the seed, independent of ambient
entropy.  `complete_ensemble_sift` is not: it never reads its `seed`
parameter — its noise matrix comes from the unseeded global RNG and each
realization calls `default_rng(None)` — so with the same seed 42 two runs
under different entropy consume different random draws. -/
theorem C3_ensemble_seed_determinism :
    (∀ (s nens : ℕ) (ent ent' : ℕ → ℕ),
        ensembleSiftSeedTrace (some s) ent nens
          = ensembleSiftSeedTrace (some s) ent' nens) ∧
    completeEnsembleSiftRandTrace (some 42) (fun _ => 0) 2
      ≠ completeEnsembleSiftRandTrace (some 42) (fun _ => 1) 2 := by
  exact ⟨fun _ _ _ _ => rfl, by decide⟩

/-- **C5** (counterexample).  The claim concludes that the returned IMF
collection contains at most `max_imfs` IMFs.  With `max_imfs = 0` the
post-increment check `layer == max_imfs` never fires and the loop has
already appended one IMF, so the run returns 1 IMF, exceeding the cap. -/
theorem C5_max_imfs_counterexample :
    sift (fun _ => GNIOutcome.ok [1] false) [1] 0 (some 0) 3
      = SiftResult.ok [[1]] ∧ ¬(([[1]] : List Signal).length ≤ 0) := by
  refine ⟨by norm_num [sift, siftLoop, sumAbs], by decide⟩

/-- **C6** (counterexample).  The claim asserts padded-location coverage
(`min < 0` and `max ≥ N`) for every pad width `W ≥ 0` whenever
`get_padded_extrema` succeeds.  With `W = 0` the function returns the raw
interior extrema (sift.py line 1293) without any padding: on
`[0,1,0,1,0]` it succeeds with locations `[1, 3]`, whose minimum is not
negative. -/
theorem C6_padding_coverage_counterexample :
    get_padded_extrema [0, 1, 0, 1, 0] 0 ExtremaMode.peaks 5
      = some ([1, 3], [1, 1]) ∧ ¬(lmin [1, 3] < 0) := by
  refine ⟨by decide, by decide⟩

/-- **C8** (evaluation at the failing input).  The claim says any numeric
first-mask frequency outside (0, 0.5) raises a descriptive validation error.
Only the low side does: `get_mask_freqs(-0.1)` hits the intended
`ValueError`, but `get_mask_freqs(0.6)` falls past the `elif f < .5` guard,
no branch assigns `z`, and `return z` raises `UnboundLocalError` instead of
the validation error. -/
theorem C8_mask_freq_validation :
    get_mask_freqs_num (-(1/10)) = MaskFreqOutcome.valueError ∧
    get_mask_freqs_num (3/5) = MaskFreqOutcome.unboundLocal := by
  refine ⟨by norm_num [get_mask_freqs_num], by norm_num [get_mask_freqs_num]⟩

/-- **C1** (amended).  At each refinement iteration of `get_next_imf` with
`stop_method='sd'`, current proto-IMF `p` and candidate `c = p - avg`, the
stopping metric equals ‖c−p‖² divided by ‖p‖² — the squared norm of the
*proto-IMF*, not of the candidate — and refinement stops, emitting `c`,
exactly when this metric is strictly below `sd_thresh`.  Stated at the head
of the loop (`p = X`, envelopes `u`, `v`): the metric identity, the strict
stop rule, and the emission of `c` whenever the metric clears the
threshold. -/
theorem C1_sd_stop_amended (env : EnvFun) (o : ImfOpts) (X u v : Signal)
    (hu : env EnvMode.upper X = some u) (hv : env EnvMode.lower X = some v)
    (hsd : o.stopMethod = StopMethod.sd) (_hX : sumsq X ≠ 0)
    (fuel : ℕ) (hf : 1 ≤ fuel) :
    (sd_stop X (subS X (meanUL u v)) o.sdThresh).2
        = sumsq (subS (subS X (meanUL u v)) X) / sumsq X ∧
    ((sd_stop X (subS X (meanUL u v)) o.sdThresh).1 = true ↔
        sumsq (subS (subS X (meanUL u v)) X) / sumsq X < o.sdThresh) ∧
    (sumsq (subS (subS X (meanUL u v)) X) / sumsq X < o.sdThresh →
        get_next_imf env o none fuel X
          = GNIOutcome.ok (subS X (meanUL u v)) true) := by
  have hms : sumsq (subS (subS X (meanUL u v)) X)
      = sumsq (subS X (subS X (meanUL u v))) := sumsq_sub_comm _ _
  refine ⟨by simp [sd_stop, hms], by simp [sd_stop, hms], ?_⟩
  intro hlt
  obtain ⟨f, rfl⟩ : ∃ f, fuel = f + 1 := ⟨fuel - 1, by omega⟩
  have hstop : stopCheck o u v X 1 = true := by
    simp [stopCheck, hsd, sd_stop, ← hms, hlt]
  simp only [get_next_imf, getNextImfLoop]
  rw [if_neg (fun h => absurd h.2.2 (Nat.not_lt_zero _))]
  simp [hu, hv, hstop]

/-- The witness run for C1: with envelopes `[1/10]`, `[0]` on `X = [1]` the
first-iteration metric is 1/400 < 1/10, so `get_next_imf` stops at once and
emits the candidate. -/
theorem C1_sd_stop_amended_witness :
    sumsq [(1 : ℚ)] ≠ 0 ∧
    ((sd_stop [1] (subS [1] (meanUL [1/10] [0])) ((1:ℚ)/10)).2
        = sumsq (subS (subS [1] (meanUL [1/10] [0])) [1]) / sumsq [1] ∧
    ((sd_stop [1] (subS [1] (meanUL [1/10] [0])) ((1:ℚ)/10)).1 = true ↔
        sumsq (subS (subS [1] (meanUL [1/10] [0])) [1]) / sumsq [1] < (1:ℚ)/10) ∧
    (sumsq (subS (subS [1] (meanUL [1/10] [0])) [1]) / sumsq [1] < (1:ℚ)/10 →
        get_next_imf
          (fun m _ => match m with
            | EnvMode.upper => some [1/10]
            | _ => some [0])
          ⟨StopMethod.sd, 1/10, 1/20, 1/2, 1/20, 1, 1000⟩ none 1 [1]
          = GNIOutcome.ok (subS [1] (meanUL [1/10] [0])) true)) :=
  ⟨by norm_num [sumsq],
    C1_sd_stop_amended
      (fun m _ => match m with
        | EnvMode.upper => some [1/10]
        | _ => some [0])
      ⟨StopMethod.sd, 1/10, 1/20, 1/2, 1/20, 1, 1000⟩ [1] [1/10] [0]
      rfl rfl rfl (by norm_num [sumsq]) 1 (by omega)⟩

/-- The refinement loop of `get_next_imf` raises `EMDSiftCovergeError` when
the criterion never fires: with a non-fixed stop method and envelopes that
always exist but never satisfy the criterion, any unrolling generous enough
to reach `niters > max_iters` ends in the error. -/
theorem getNextImfLoop_no_stop_diverges (env : EnvFun) (o : ImfOpts)
    (hsm : o.stopMethod ≠ StopMethod.fixed)
    (henv : ∀ p : Signal, ∃ u v, env EnvMode.upper p = some u ∧
        env EnvMode.lower p = some v ∧ ∀ n, stopCheck o u v p n = false) :
    ∀ fuel niters proto, 1 ≤ fuel → o.maxIters + 2 ≤ niters + fuel →
      getNextImfLoop env o fuel proto niters = GNIOutcome.convergeError := by
  intro fuel
  induction fuel with
  | zero => intro niters proto h1 _; omega
  | succ f ih =>
    intro niters proto _ h2
    simp only [getNextImfLoop]
    by_cases hgt : o.maxIters < niters
    · rw [if_pos ⟨hsm, by omega, hgt⟩]
    · rw [if_neg (fun h => hgt h.2.2)]
      obtain ⟨u, v, hu, hv, hstop⟩ := henv proto
      simp only [hu, hv, hstop]
      exact ih (niters + 1) _ (by omega) (by omega)

/-- **C4**.  For a non-fixed stop method, when the stopping criterion never
fires the refinement of `get_next_imf` exceeds `max_iters` and raises
`EMDSiftCovergeError`; no partial IMF accompanies the error and the error
propagates through the `sift` driver as a failure of the whole
decomposition. -/
theorem C4_convergence_error (env : EnvFun) (o : ImfOpts)
    (egate : Option (Signal → Signal → Bool)) (X : Signal) (thresh : ℚ)
    (maxImfs : Option ℕ) (fuel sfuel : ℕ)
    (hsm : o.stopMethod ≠ StopMethod.fixed)
    (henv : ∀ p : Signal, ∃ u v, env EnvMode.upper p = some u ∧
        env EnvMode.lower p = some v ∧ ∀ n, stopCheck o u v p n = false)
    (hfuel : o.maxIters + 2 ≤ fuel) (hsfuel : 1 ≤ sfuel) :
    get_next_imf env o egate fuel X = GNIOutcome.convergeError ∧
    sift (get_next_imf env o egate fuel) X thresh maxImfs sfuel
      = SiftResult.convergeError := by
  have h1 : get_next_imf env o egate fuel X = GNIOutcome.convergeError := by
    unfold get_next_imf
    rw [getNextImfLoop_no_stop_diverges env o hsm henv fuel 0 X (by omega)
      (by omega)]
  refine ⟨h1, ?_⟩
  obtain ⟨s, rfl⟩ : ∃ s, sfuel = s + 1 := ⟨sfuel - 1, by omega⟩
  simp only [sift, siftLoop, h1]

/-- The witness run for C4: constant envelopes `[2]`/`[0]` never satisfy the
Rilling criterion, so with `max_iters = 1` the refinement and the whole sift
end in the convergence error. -/
theorem C4_convergence_error_witness :
    get_next_imf
        (fun m _ => match m with
          | EnvMode.upper => some [2]
          | _ => some [0])
        ⟨StopMethod.rilling, 1/10, 1/20, 1/2, 1/20, 1, 1⟩ none 3 [0]
      = GNIOutcome.convergeError ∧
    sift (get_next_imf
        (fun m _ => match m with
          | EnvMode.upper => some [2]
          | _ => some [0])
        ⟨StopMethod.rilling, 1/10, 1/20, 1/2, 1/20, 1, 1⟩ none 3) [0]
        (1/100000000) none 2
      = SiftResult.convergeError :=
  C4_convergence_error _ _ _ _ _ _ _ _ (by decide)
    (fun p => ⟨[2], [0], rfl, rfl,
      fun n => by norm_num [stopCheck, rilling_stop, meanUL, subS]⟩)
    (by decide) (by decide)

/-- Invariant of the `sift` driver loop: each iteration appends exactly one
IMF and increments the layer count; with the cap `some m` still ahead, a
successful exit yields strictly more IMFs than the entry layer and at most
`m` in total. -/
theorem siftLoop_length_aux (next : Signal → GNIOutcome) (X : Signal)
    (thresh : ℚ) (m : ℕ) :
    ∀ fuel proto layer acc imfs, acc.length = layer → layer < m →
      siftLoop next X thresh (some m) fuel proto layer acc
        = SiftResult.ok imfs →
      layer < imfs.length ∧ imfs.length ≤ m := by
  intro fuel
  induction fuel with
  | zero => intro _ _ _ _ _ _ h; simp [siftLoop] at h
  | succ f ih =>
    intro proto layer acc imfs hacc hlt h
    simp only [siftLoop] at h
    split at h
    · rename_i nxt flag heq
      have hexit : SiftResult.ok (acc ++ [nxt]) = SiftResult.ok imfs →
          layer < imfs.length ∧ imfs.length ≤ m := by
        intro he
        injection he with h2
        subst h2
        simp only [List.length_append, List.length_cons, List.length_nil, hacc]
        omega
      by_cases hs : sumAbs nxt < thresh
      · simp only [if_pos hs, Bool.false_eq_true, if_false] at h
        exact hexit h
      · simp only [if_neg hs] at h
        by_cases hm1 : m = layer + 1
        · simp only [hm1, Option.some.injEq, if_pos rfl, Bool.false_eq_true,
            if_false] at h
          exact hexit h
        · have : ¬(some m = some (layer + 1)) := by
            simp [hm1]
          simp only [if_neg this] at h
          cases flag with
          | false => simp only [Bool.false_eq_true, if_false] at h; exact hexit h
          | true =>
            simp only [if_pos rfl] at h
            have := ih _ (layer + 1) (acc ++ [nxt]) imfs (by simp [hacc])
              (by omega) h
            omega
    · simp at h
    · simp at h

/-- **C5** (amended).  The classic sift appends one IMF per layer and stops
exactly when the continue flag is false, the layer count reaches `max_imfs`,
or the newest IMF's absolute sum falls below `sift_thresh`; consequently,
for `max_imfs = m ≥ 1`, a successful run returns between 1 and `m` IMFs
(with `m = 0` the post-increment cap check can never fire and the bound
fails — see the counterexample). -/
theorem C5_sift_layer_bound (next : Signal → GNIOutcome) (X : Signal)
    (thresh : ℚ) (m fuel : ℕ) (imfs : List Signal) (hm : 1 ≤ m)
    (h : sift next X thresh (some m) fuel = SiftResult.ok imfs) :
    1 ≤ imfs.length ∧ imfs.length ≤ m := by
  have := siftLoop_length_aux next X thresh m fuel X 0 [] imfs rfl
    (by omega) h
  omega

/-- The witness run for C5: a refiner that immediately hands back the input
with a false continue flag makes `sift` with cap 2 return exactly one IMF. -/
theorem C5_sift_layer_bound_witness :
    sift (fun p => GNIOutcome.ok p false) [1] 0 (some 2) 5
      = SiftResult.ok [[1]] ∧
    (1 ≤ ([[1]] : List Signal).length ∧ ([[1]] : List Signal).length ≤ 2) :=
  ⟨by norm_num [sift, siftLoop, sumAbs],
    C5_sift_layer_bound (fun p => GNIOutcome.ok p false) [1] 0 2 5 [[1]]
      (by omega) (by norm_num [sift, siftLoop, sumAbs])⟩

/-- **C10**.  When `get_next_imf_mask` returns, its continue flag is
`np.any` of the per-phase flags: true exactly when at least one of the
masked refinements reported that sifting can continue. -/
theorem C10_mask_flag_disjunction (next : Signal → GNIOutcome) (X : Signal)
    (masks : List Signal) (imf : Signal) (flag : Bool)
    (h : get_next_imf_mask next X masks = GNIOutcome.ok imf flag) :
    flag = true ↔ ∃ m ∈ masks, ∃ s, next (addS X m) = GNIOutcome.ok s true := by
  simp only [get_next_imf_mask] at h
  split at h
  · rename_i e hf
    have hp := List.find?_some hf
    subst h
    simp at hp
  · rename_i hf
    injection h with h1 h2
    subst h2
    simp only [List.any_eq_true, List.mem_map, id_eq]
    constructor
    · rintro ⟨fl, ⟨r, ⟨m, hm, rfl⟩, rfl⟩, htrue⟩
      cases hr : next (addS X m) with
      | ok s f =>
        rw [hr] at htrue
        cases f with
        | false => simp at htrue
        | true => exact ⟨m, hm, s, hr⟩
      | convergeError => rw [hr] at htrue; simp at htrue
      | fuelOut => rw [hr] at htrue; simp at htrue
    · rintro ⟨m, hm, s, hs⟩
      exact ⟨true, ⟨GNIOutcome.ok s true, ⟨m, hm, hs⟩, rfl⟩, rfl⟩

/-- The witness run for C10: two phases, one of which reports it can
continue, so the collated flag is true. -/
theorem C10_mask_flag_disjunction_witness :
    (true = true ↔ ∃ m ∈ ([[0, 0], [2, 2]] : List Signal), ∃ s,
        (fun p => GNIOutcome.ok p (decide (3 < sumAbs p))) (addS [1, 1] m)
          = GNIOutcome.ok s true) :=
  C10_mask_flag_disjunction (fun p => GNIOutcome.ok p (decide (3 < sumAbs p)))
    [1, 1] [[0, 0], [2, 2]] [1, 1] true
    (by norm_num [get_next_imf_mask, addS, subS, sumAbs, meanSignals,
      List.range_succ])

theorem getD_replicate (n i : ℕ) (c d : ℚ) :
    (List.replicate n c).getD i d = if i < n then c else d := by
  induction n generalizing i with
  | zero => simp
  | succ k ih =>
    cases i with
    | zero => simp [List.replicate]
    | succ j =>
      rw [List.replicate_succ, List.getD_cons_succ, ih]
      simp [Nat.succ_lt_succ_iff]

theorem findExtremaLocs_replicate (n : ℕ) (c : ℚ) :
    findExtremaLocs (List.replicate n c) = [] := by
  unfold findExtremaLocs
  rw [List.filter_eq_nil_iff]
  intro i _
  simp only [Bool.and_eq_true, decide_eq_true_eq, List.length_replicate]
  rintro ⟨⟨⟨h0, h1⟩, h2⟩, -⟩
  rw [getD_replicate, getD_replicate, if_pos (by omega), if_pos (by omega)] at h2
  exact lt_irrefl c h2

theorem findExtremaMode_replicate (mode : ExtremaMode) (n : ℕ) (c : ℚ) :
    findExtremaMode mode (List.replicate n c) = ([], []) := by
  cases mode <;>
    simp [findExtremaMode, find_extrema, List.map_replicate,
      findExtremaLocs_replicate]

theorem get_padded_extrema_replicate (n : ℕ) (c : ℚ) (padW fuel : ℕ)
    (mode : ExtremaMode) :
    get_padded_extrema (List.replicate n c) padW mode fuel = none := by
  simp [get_padded_extrema, findExtremaMode_replicate]

/-- **C9**.  On a constant input signal the extrema detector returns empty
location and magnitude sets, `get_next_imf` exits its first iteration in the
no-extrema state returning the input unchanged with a false continue flag,
and the classic sift returns the input as its single IMF. -/
theorem C9_constant_input (n : ℕ) (c : ℚ) (kernel : InterpKernel)
    (padW fuelP fuelI fuelS : ℕ) (o : ImfOpts)
    (egate : Option (Signal → Signal → Bool)) (thresh : ℚ)
    (maxImfs : Option ℕ) (hfI : 1 ≤ fuelI) (hfS : 1 ≤ fuelS) :
    find_extrema (List.replicate n c) = ([], []) ∧
    get_next_imf (envOf kernel padW fuelP) o egate fuelI (List.replicate n c)
      = GNIOutcome.ok (List.replicate n c) false ∧
    sift (get_next_imf (envOf kernel padW fuelP) o egate fuelI)
      (List.replicate n c) thresh maxImfs fuelS
      = SiftResult.ok [List.replicate n c] := by
  have henv : ∀ mode, envOf kernel padW fuelP mode (List.replicate n c)
      = none := by
    intro mode
    cases mode <;>
      simp [envOf, interp_envelope, get_padded_extrema_replicate]
  have hgni : get_next_imf (envOf kernel padW fuelP) o egate fuelI
      (List.replicate n c) = GNIOutcome.ok (List.replicate n c) false := by
    obtain ⟨f, rfl⟩ : ∃ f, fuelI = f + 1 := ⟨fuelI - 1, by omega⟩
    simp only [get_next_imf, getNextImfLoop]
    rw [if_neg (fun h => absurd h.2.2 (Nat.not_lt_zero _))]
    rw [henv EnvMode.upper, henv EnvMode.lower]
    cases egate with
    | none => rfl
    | some g =>
      simp only
      split <;> rfl
  refine ⟨by simp [find_extrema, findExtremaLocs_replicate], hgni, ?_⟩
  obtain ⟨s, rfl⟩ : ∃ s, fuelS = s + 1 := ⟨fuelS - 1, by omega⟩
  simp only [sift, siftLoop, hgni, ite_self, List.nil_append,
    Bool.false_eq_true, if_false]

/-- The witness run for C9: the constant signal `[2, 2, 2]`. -/
theorem C9_constant_input_witness :
    find_extrema (List.replicate 3 (2 : ℚ)) = ([], []) ∧
    get_next_imf (envOf (fun _ _ _ => none) 2 5) defaultImfOpts none 1
        (List.replicate 3 (2 : ℚ))
      = GNIOutcome.ok (List.replicate 3 (2 : ℚ)) false ∧
    sift (get_next_imf (envOf (fun _ _ _ => none) 2 5) defaultImfOpts none 1)
        (List.replicate 3 (2 : ℚ)) (1/100000000) none 1
      = SiftResult.ok [List.replicate 3 (2 : ℚ)] :=
  C9_constant_input 3 2 (fun _ _ _ => none) 2 5 1 1 defaultImfOpts none
    (1/100000000) none (by omega) (by omega)

/-- A successful exit of the re-pad loop can only happen through the loop
condition failing, which is exactly location coverage of `[0, N)`. -/
theorem padLoop_coverage (w N : ℕ) :
    ∀ fuel (locs : List ℤ) (mags : List ℚ) (out : List ℤ × List ℚ),
      padLoop w N fuel locs mags = some out →
      lmin out.1 < 0 ∧ (N : ℤ) ≤ lmax out.1 := by
  intro fuel
  induction fuel with
  | zero => intro _ _ _ h; simp [padLoop] at h
  | succ f ih =>
    intro locs mags out h
    simp only [padLoop] at h
    split at h
    · exact ih _ _ _ h
    · rename_i hcond
      push_neg at hcond
      injection h with h2
      subst h2
      exact ⟨hcond.2, hcond.1⟩

/-- **C6** (amended).  For every pad width `W ≥ 1`, whenever
`get_padded_extrema` succeeds the returned locations satisfy
`min(locations) < 0` and `max(locations) ≥ N`, so the envelope domain covers
the whole signal.  (With `W = 0` the function returns the raw unpadded
extrema and the coverage fails — see the counterexample.) -/
theorem C6_padding_coverage (X : Signal) (W : ℕ) (mode : ExtremaMode)
    (fuel : ℕ) (locs : List ℤ) (mags : List ℚ) (hW : 1 ≤ W)
    (h : get_padded_extrema X W mode fuel = some (locs, mags)) :
    lmin locs < 0 ∧ (X.length : ℤ) ≤ lmax locs := by
  simp only [get_padded_extrema] at h
  split at h
  · exact absurd h (by simp)
  · rename_i hlen
    by_cases hc : (findExtremaMode mode X).1.length < W
    · rw [if_pos hc,
        if_neg (show ¬((findExtremaMode mode X).1.length = 0) from
          fun h0 => hlen (Or.inl h0))] at h
      exact padLoop_coverage _ _ fuel _ _ (locs, mags) h
    · rw [if_neg hc, if_neg (show ¬(W = 0) by omega)] at h
      exact padLoop_coverage _ _ fuel _ _ (locs, mags) h

/-- The witness run for C6: two interior extrema of `[0,1,0,1,0]` padded
with width 2 produce locations `[-3,-1,1,3,5,7]`, which cover `[0, 5)`. -/
theorem C6_padding_coverage_witness :
    get_padded_extrema [0, 1, 0, 1, 0] 2 ExtremaMode.peaks 1
        = some ([-3, -1, 1, 3, 5, 7], [1, 1, 1, 1, 1, 1]) ∧
    (lmin [-3, -1, 1, 3, 5, 7] < 0 ∧
      (([0, 1, 0, 1, 0] : Signal).length : ℤ) ≤ lmax [-3, -1, 1, 3, 5, 7]) := by
  have hev : get_padded_extrema [0, 1, 0, 1, 0] 2 ExtremaMode.peaks 1
      = some ([-3, -1, 1, 3, 5, 7], [1, 1, 1, 1, 1, 1]) := by decide
  exact ⟨hev, C6_padding_coverage [0, 1, 0, 1, 0] 2 ExtremaMode.peaks 1
    [-3, -1, 1, 3, 5, 7] [1, 1, 1, 1, 1, 1] (by omega) hev⟩

/-! ### Termination of the re-pad loop (claim C7)

One odd-reflection pass on strictly increasing integer locations strictly
lowers the minimum and strictly raises the maximum while preserving strict
monotonicity, so each turn of the `while` loop makes integer progress
towards covering `[0, N)`. -/

theorem pairwise_head_rel {R : ℤ → ℤ → Prop} {x : ℤ} {xs : List ℤ}
    (h : (x :: xs).Pairwise R) {z : ℤ} (hz : z ∈ xs) : R x z :=
  (List.pairwise_cons.mp h).1 z hz

theorem sorted_head_lt {x : ℤ} {xs : List ℤ} (h : (x :: xs).Pairwise (· < ·))
    {z : ℤ} (hz : z ∈ xs) : x < z := (List.pairwise_cons.mp h).1 z hz

theorem sorted_head_le {x : ℤ} {xs : List ℤ} (h : (x :: xs).Pairwise (· < ·))
    {z : ℤ} (hz : z ∈ x :: xs) : x ≤ z := by
  rcases List.mem_cons.mp hz with rfl | hz'
  · exact le_refl z
  · exact le_of_lt (sorted_head_lt h hz')

theorem headD_eq_lmin {a : List ℤ} (ha : a.Pairwise (· < ·)) (hne : a ≠ []) :
    a.headD 0 = lmin a := by
  cases a with
  | nil => exact absurd rfl hne
  | cons x t => exact (lmin_of_sorted ha).symm

theorem getLastD_eq_lmax {a : List ℤ} (ha : a.Pairwise (· < ·))
    (hne : a ≠ []) : a.getLastD 0 = lmax a := (lmax_of_sorted ha hne).symm

theorem headD_lt_mem_drop {a : List ℤ} (ha : a.Pairwise (· < ·)) {z : ℤ}
    (hz : z ∈ a.drop 1) : a.headD 0 < z := by
  cases a with
  | nil => simp at hz
  | cons x t => exact sorted_head_lt ha (by simpa using hz)

theorem reverse_headD {a : List ℤ} :
    a.reverse.headD 0 = a.getLastD 0 := by
  rw [List.headD_eq_head?, List.head?_reverse, List.getLastD_eq_getLast?]

theorem reverse_pairwise_gt {a : List ℤ} (ha : a.Pairwise (· < ·)) :
    a.reverse.Pairwise (fun p q => q < p) :=
  List.pairwise_reverse.mpr ha

theorem getLastD_gt_mem_reverse_drop {a : List ℤ} (ha : a.Pairwise (· < ·))
    {z : ℤ} (hz : z ∈ a.reverse.drop 1) : z < a.getLastD 0 := by
  rw [← reverse_headD]
  cases hr : a.reverse with
  | nil => rw [hr] at hz; simp at hz
  | cons x t =>
    have := reverse_pairwise_gt ha
    rw [hr] at this hz
    simpa using pairwise_head_rel this (show z ∈ t by simpa using hz)

theorem mem_le_getLastD {a : List ℤ} (ha : a.Pairwise (· < ·)) {q : ℤ}
    (hq : q ∈ a) : q ≤ a.getLastD 0 := by
  have hq' : q ∈ a.reverse := List.mem_reverse.mpr hq
  rw [← reverse_headD]
  cases hr : a.reverse with
  | nil => rw [hr] at hq'; simp at hq'
  | cons x t =>
    have := reverse_pairwise_gt ha
    rw [hr] at this hq'
    rcases List.mem_cons.mp hq' with rfl | hq''
    · simp
    · simpa using le_of_lt (pairwise_head_rel this hq'')

theorem mem_ge_headD {a : List ℤ} (ha : a.Pairwise (· < ·)) {q : ℤ}
    (hq : q ∈ a) : a.headD 0 ≤ q := by
  cases a with
  | nil => simp at hq
  | cons x t => exact sorted_head_le ha hq

/-- One odd-reflection chunk on a strictly increasing location list of
length ≥ 2 with width ≥ 1: the result is strictly increasing, still has
length ≥ 2, and has a strictly smaller minimum and strictly larger
maximum. -/
theorem padOnceOdd_props {a : List ℤ} {w : ℕ} (ha : a.Pairwise (· < ·))
    (hlen : 2 ≤ a.length) (hw : 1 ≤ w) :
    (padOnceOdd w a).Pairwise (· < ·) ∧ 2 ≤ (padOnceOdd w a).length ∧
    lmin (padOnceOdd w a) < lmin a ∧ lmax a < lmax (padOnceOdd w a) := by
  have hane : a ≠ [] := by
    intro h
    rw [h] at hlen
    simp at hlen
  -- membership shapes of the two reflected flanks
  have hmemL : ∀ p ∈ leftReflectOdd w a, ∃ z ∈ a.drop 1,
      p = 2 * a.headD 0 - z := by
    intro p hp
    rw [leftReflectOdd, List.mem_reverse, List.mem_map] at hp
    obtain ⟨z, hz, rfl⟩ := hp
    exact ⟨z, List.mem_of_mem_take hz, rfl⟩
  have hmemR : ∀ r ∈ rightReflectOdd w a, ∃ z ∈ a.reverse.drop 1,
      r = 2 * a.getLastD 0 - z := by
    intro r hr
    rw [rightReflectOdd, List.mem_map] at hr
    obtain ⟨z, hz, rfl⟩ := hr
    exact ⟨z, List.mem_of_mem_take hz, rfl⟩
  have hlt_head : ∀ p ∈ leftReflectOdd w a, p < a.headD 0 := by
    intro p hp
    obtain ⟨z, hz, rfl⟩ := hmemL p hp
    have := headD_lt_mem_drop ha hz
    omega
  have hgt_last : ∀ r ∈ rightReflectOdd w a, a.getLastD 0 < r := by
    intro r hr
    obtain ⟨z, hz, rfl⟩ := hmemR r hr
    have := getLastD_gt_mem_reverse_drop ha hz
    omega
  -- pairwise on the flanks
  have hpwL : (leftReflectOdd w a).Pairwise (· < ·) := by
    rw [leftReflectOdd, List.pairwise_reverse, List.pairwise_map]
    have hs : ((a.drop 1).take w).Pairwise (· < ·) :=
      ha.sublist ((List.take_sublist _ _).trans (List.drop_sublist _ _))
    exact hs.imp (fun h => by omega)
  have hpwR : (rightReflectOdd w a).Pairwise (· < ·) := by
    rw [rightReflectOdd, List.pairwise_map]
    have hs : ((a.reverse.drop 1).take w).Pairwise (fun p q => q < p) :=
      (reverse_pairwise_gt ha).sublist
        ((List.take_sublist _ _).trans (List.drop_sublist _ _))
    exact hs.imp (fun h => by omega)
  -- the flanks are nonempty
  have hneL : leftReflectOdd w a ≠ [] := by
    have : 1 ≤ (leftReflectOdd w a).length := by
      simp only [leftReflectOdd, List.length_reverse, List.length_map,
        List.length_take, List.length_drop]
      omega
    intro h
    rw [h] at this
    simp at this
  have hneR : rightReflectOdd w a ≠ [] := by
    have : 1 ≤ (rightReflectOdd w a).length := by
      simp only [rightReflectOdd, List.length_map, List.length_take,
        List.length_drop, List.length_reverse]
      omega
    intro h
    rw [h] at this
    simp at this
  have hhl : a.headD 0 ≤ a.getLastD 0 := by
    apply mem_le_getLastD ha
    cases a with
    | nil => exact absurd rfl hane
    | cons x t => exact List.mem_cons_self x t
  -- pairwise of the whole padded list
  have hPW : (padOnceOdd w a).Pairwise (· < ·) := by
    rw [padOnceOdd, List.pairwise_append]
    refine ⟨?_, hpwR, ?_⟩
    · rw [List.pairwise_append]
      exact ⟨hpwL, ha, fun p hp q hq =>
        lt_of_lt_of_le (hlt_head p hp) (mem_ge_headD ha hq)⟩
    · intro y hy r hr
      rcases List.mem_append.mp hy with hy | hy
      · exact lt_trans (lt_of_lt_of_le (hlt_head y hy) hhl) (hgt_last r hr)
      · exact lt_of_le_of_lt (mem_le_getLastD ha hy) (hgt_last r hr)
  refine ⟨hPW, ?_, ?_, ?_⟩
  · rw [padOnceOdd]
    simp only [List.length_append]
    omega
  · obtain ⟨p, hp⟩ := List.exists_mem_of_ne_nil _ hneL
    have hpmem : p ∈ padOnceOdd w a := by
      rw [padOnceOdd]
      exact List.mem_append.mpr (Or.inl (List.mem_append.mpr (Or.inl hp)))
    calc lmin (padOnceOdd w a) ≤ p := lmin_le_mem hpmem
      _ < a.headD 0 := hlt_head p hp
      _ = lmin a := headD_eq_lmin ha hane
  · obtain ⟨r, hr⟩ := List.exists_mem_of_ne_nil _ hneR
    have hrmem : r ∈ padOnceOdd w a := by
      rw [padOnceOdd]
      exact List.mem_append.mpr (Or.inr hr)
    calc lmax a = a.getLastD 0 := (getLastD_eq_lmax ha hane).symm
      _ < r := hgt_last r hr
      _ ≤ lmax (padOnceOdd w a) := mem_le_lmax hrmem

/-- The chunked reflection inherits the properties of a single chunk as long
as the structural counter dominates the requested width. -/
theorem padReflectOddAux_props : ∀ (fuel w : ℕ) (a : List ℤ),
    a.Pairwise (· < ·) → 2 ≤ a.length → 1 ≤ w → w ≤ fuel →
    (padReflectOddAux fuel w a).Pairwise (· < ·) ∧
    2 ≤ (padReflectOddAux fuel w a).length ∧
    lmin (padReflectOddAux fuel w a) < lmin a ∧
    lmax a < lmax (padReflectOddAux fuel w a) := by
  intro fuel
  induction fuel with
  | zero => intro w a _ _ hw hf; omega
  | succ f ih =>
    intro w a ha hlen hw hf
    simp only [padReflectOddAux]
    rw [if_neg (by omega), if_neg (by omega)]
    by_cases hc : w ≤ a.length - 1
    · rw [if_pos hc]
      exact padOnceOdd_props ha hlen hw
    · rw [if_neg hc]
      obtain ⟨hp1, hl1, hmin1, hmax1⟩ := padOnceOdd_props ha hlen
        (show 1 ≤ a.length - 1 by omega)
      obtain ⟨hp2, hl2, hmin2, hmax2⟩ := ih (w - (a.length - 1))
        (padOnceOdd (a.length - 1) a) hp1 hl1 (by omega) (by omega)
      exact ⟨hp2, hl2, lt_trans hmin2 hmin1, lt_trans hmax1 hmax2⟩

theorem padReflectOdd_props {a : List ℤ} {w : ℕ} (ha : a.Pairwise (· < ·))
    (hlen : 2 ≤ a.length) (hw : 1 ≤ w) :
    (padReflectOdd w a).Pairwise (· < ·) ∧
    2 ≤ (padReflectOdd w a).length ∧
    lmin (padReflectOdd w a) < lmin a ∧ lmax a < lmax (padReflectOdd w a) :=
  padReflectOddAux_props w w a ha hlen hw (le_refl w)

/-- Integer progress bounds the re-pad loop: with fuel exceeding the sum of
the two coverage deficits, the loop exits. -/
theorem padLoop_isSome (w N : ℕ) (hw : 1 ≤ w) :
    ∀ (fuel : ℕ) (locs : List ℤ) (mags : List ℚ),
      locs.Pairwise (· < ·) → 2 ≤ locs.length →
      (lmin locs + 1).toNat + ((N : ℤ) - lmax locs).toNat < fuel →
      (padLoop w N fuel locs mags).isSome := by
  intro fuel
  induction fuel with
  | zero => intro _ _ _ _ h; omega
  | succ f ih =>
    intro locs mags hp hl hφ
    simp only [padLoop]
    split
    · rename_i hcond
      obtain ⟨hp', hl', hmin, hmax⟩ := padReflectOdd_props hp hl hw
      exact ih _ _ hp' hl' (by omega)
    · simp

theorem findExtremaLocs_pairwise (X : Signal) :
    (findExtremaLocs X).Pairwise (· < ·) :=
  List.Pairwise.sublist (List.filter_sublist _) (List.pairwise_lt_range _)

theorem findExtremaMode_fst_pairwise (mode : ExtremaMode) (X : Signal) :
    (findExtremaMode mode X).1.Pairwise (· < ·) := by
  cases mode <;>
    simp only [findExtremaMode, find_extrema] <;>
    exact findExtremaLocs_pairwise _

/-- **C7**.  Whenever at least 2 extrema are detected and the pad width is
at least 1, the re-pad `while` loop of `get_padded_extrema` terminates:
some finite unrolling of the loop returns a result. -/
theorem C7_pad_loop_terminates (X : Signal) (W : ℕ) (mode : ExtremaMode)
    (h2 : 2 ≤ (findExtremaMode mode X).1.length) (hW : 1 ≤ W) :
    ∃ fuel, (get_padded_extrema X W mode fuel).isSome := by
  have hc1 : ¬((findExtremaMode mode X).1.length = 0 ∨
      (findExtremaMode mode X).1.length ≤ 1) := by omega
  have hw1 : 1 ≤ (if (findExtremaMode mode X).1.length < W then
      (findExtremaMode mode X).1.length else W) := by
    by_cases hc : (findExtremaMode mode X).1.length < W
    · rw [if_pos hc]; omega
    · rw [if_neg hc]; omega
  have hc2 : ¬((if (findExtremaMode mode X).1.length < W then
      (findExtremaMode mode X).1.length else W) = 0) := by omega
  have hpw : ((findExtremaMode mode X).1.map Int.ofNat).Pairwise (· < ·) :=
    List.pairwise_map.mpr ((findExtremaMode_fst_pairwise mode X).imp
      (fun h => Int.ofNat_lt.mpr h))
  have hlen : 2 ≤ ((findExtremaMode mode X).1.map Int.ofNat).length := by
    rw [List.length_map]
    exact h2
  obtain ⟨hp1, hl1, -, -⟩ := padReflectOdd_props hpw hlen hw1
  refine ⟨(lmin (padReflectOdd
      (if (findExtremaMode mode X).1.length < W then
        (findExtremaMode mode X).1.length else W)
      ((findExtremaMode mode X).1.map Int.ofNat)) + 1).toNat
    + ((X.length : ℤ) - lmax (padReflectOdd
      (if (findExtremaMode mode X).1.length < W then
        (findExtremaMode mode X).1.length else W)
      ((findExtremaMode mode X).1.map Int.ofNat))).toNat + 1, ?_⟩
  simp only [get_padded_extrema, if_neg hc1, if_neg hc2]
  exact padLoop_isSome _ X.length hw1 _ _ _ hp1 hl1 (by omega)

/-- The witness run for C7: `[0,1,0,1,0]` has two extrema, and with pad
width 1 the loop indeed exits within some finite fuel. -/
theorem C7_pad_loop_terminates_witness :
    2 ≤ (findExtremaMode ExtremaMode.peaks [0, 1, 0, 1, 0]).1.length ∧
    ∃ fuel, (get_padded_extrema [0, 1, 0, 1, 0] 1 ExtremaMode.peaks
      fuel).isSome :=
  ⟨by decide, C7_pad_loop_terminates [0, 1, 0, 1, 0] 1 ExtremaMode.peaks
    (by decide) (by omega)⟩

end EmdSift
